import Mathlib

/-!
Verification of the AEDAT-4 → AEDAT-2 converter (`aedat4to2.py`).

This file shallowly embeds the encode-and-merge pipeline of
`src/aedat4to2/aedat4to2.py` (function `export_aedat_2`, plus the frame
permutation step of `main`) and proves/refutes the specification claims
about it.

Modelling conventions:
* numpy `uint32` arithmetic is `Nat` with an explicit `% 2^32` where the
  source casts to `uint32`; `int64` timestamps are `Int`;
* numpy `float` IMU channel values are modelled as `ℚ`; `astype(int16)`
  is truncation toward zero followed by a 16-bit twos-complement wrap;
* the `while` loop at lines 425-456 is a fuel-indexed step function
  `mergeGo`; `none` models a run that does not finish (the loop spinning
  forever when no branch fires, which we prove unreachable, or running
  longer than the supplied fuel); the fuel used by `runMerge` is proved
  sufficient;
* the normalization step `all_timestamps - all_timestamps[0]` (line 461)
  is `normalizeTs`, which returns `none` on the empty list: indexing
  element 0 of an empty numpy array raises `IndexError`.
-/

namespace Aedat

/-! ### Constants from `export_aedat_2` (lines 299-313, 325-328) -/

def apsDvsImuTypeShift : ℕ := 31
def dvsType : ℕ := 0
def apsImuType : ℕ := 1
def imuTypeShift : ℕ := 28
def imuSampleShift : ℕ := 12
def imuSampleSubtype : ℕ := 3
def apsSubTypeShift : ℕ := 10
def apsAdcShift : ℕ := 0
def apsResetReadSubtype : ℕ := 0
def apsSignalReadSubtype : ℕ := 1
def yShiftBits : ℕ := 22
def xShiftBits : ℕ := 12
def polShiftBits : ℕ := 11

/-- jAER IMU scale constant `accelSensitivityScaleFactorGPerLsb` (line 325). -/
def accelSensitivityScaleFactorGPerLsb : ℚ := 8192

/-- jAER IMU scale constant `gyroSensitivityScaleFactorDegPerSecPerLsb = 65.5` (line 326). -/
def gyroSensitivityScaleFactorDegPerSecPerLsb : ℚ := 131 / 2

/-- jAER IMU scale constant `temperatureScaleFactorDegCPerLsb` (line 327). -/
def temperatureScaleFactorDegCPerLsb : ℚ := 340

/-- jAER IMU offset constant `temperatureOffsetDegC` (line 328). -/
def temperatureOffsetDegC : ℚ := 35

/-! ### Data model (decoded record buffers, §3 of the spec) -/

/-- One DVS polarity event (`out.data.dvs` columns, lines 188-191). -/
structure DvsEvent where
  timeStamp : ℤ
  x : ℕ
  y : ℕ
  polarity : Bool

/-- One IMU sample (`out.data.imu6` columns, lines 235-242). -/
structure ImuSample where
  accelX : ℚ
  accelY : ℚ
  accelZ : ℚ
  gyroX : ℚ
  gyroY : ℚ
  gyroZ : ℚ
  temperature : ℚ
  timeStamp : ℤ

/-- One frame record: `size = (width, height)` as in `out.data.frame.size`
(`hw[0]=width`, `hw[1]=height`, lines 386-388), and `samples` the pixel rows
in DV convention (row 0 = top, i.e. `[y][x]`, 0-255 values). -/
structure FrameRecord where
  timeStamp : ℤ
  size : ℕ × ℕ
  samples : List (List ℕ)

/-! ### Numeric helpers for the numpy casts -/

/-- Truncation of a rational toward zero, the rounding performed by
`astype(int16)` on a float value in range. `Int.tdiv` is T-division. -/
def ratTrunc (q : ℚ) : ℤ := q.num.tdiv (q.den : ℤ)

/-- Twos-complement wrap into `int16` range `[-2^15, 2^15)`. -/
def toInt16 (t : ℤ) : ℤ := (t + 2 ^ 15) % 2 ^ 16 - 2 ^ 15

/-- Twos-complement wrap into `int32` range, modelling `astype(int32)`
(line 462). -/
def toInt32 (t : ℤ) : ℤ := (t + 2 ^ 31) % 2 ^ 32 - 2 ^ 31

/-- The value of `q & 0xffff` for an `int16` value `q`, as numpy computes it
after promoting to a wider integer: the low 16 bits of the twos-complement
representation. -/
def land16 (t : ℤ) : ℕ := (t % 2 ^ 16).toNat

/-! ### Address encoder -/

/-- DVS address word (lines 318-321):
`y = (height-1-y) << 22`, `x = x << 12`, `pol = polarity << 11`, or-ed with
`dvsType << 31` and cast to `uint32`.  Each shifted component is a `uint32`
in the source, hence the inner `% 2^32`; the final `astype(uint32)` of the
or is a no-op on values below `2^32`. -/
def dvs_addr (height : ℕ) (e : DvsEvent) : ℕ :=
  ((((height - 1 - e.y) <<< yShiftBits) % 2 ^ 32) |||
      ((e.x <<< xShiftBits) % 2 ^ 32) |||
      (((if e.polarity then 1 else 0) <<< polShiftBits) % 2 ^ 32)) |||
    (dvsType <<< apsDvsImuTypeShift)

/-- `encode_imu` (lines 330-350) on one channel value: quantize per channel
code, then pack
`(quantized & 0xffff) << imuSampleShift | code << imuTypeShift | imuSampleSubtype << apsSubTypeShift | apsImuType << apsDvsImuTypeShift`.
`none` models the `raise ValueError` branch for a code outside 0..6. -/
def encode_imu (data : ℚ) (code : ℕ) : Option ℕ :=
  let pack : ℤ → ℕ := fun q =>
    ((land16 q) <<< imuSampleShift) ||| (code <<< imuTypeShift) |||
      (imuSampleSubtype <<< apsSubTypeShift) ||| (apsImuType <<< apsDvsImuTypeShift)
  if code = 0 then
    some (pack (toInt16 (ratTrunc (-data * accelSensitivityScaleFactorGPerLsb))))
  else if code = 1 ∨ code = 2 then
    some (pack (toInt16 (ratTrunc (data * accelSensitivityScaleFactorGPerLsb))))
  else if code = 3 then
    some (pack (toInt16 (ratTrunc
      (data * temperatureScaleFactorDegCPerLsb - temperatureOffsetDegC))))
  else if code = 4 ∨ code = 5 ∨ code = 6 then
    some (pack (toInt16 (ratTrunc (data * gyroSensitivityScaleFactorDegPerSecPerLsb))))
  else
    none

/-- The 7 encoded address words of one IMU sample, in the fixed channel order
of the strided construction `imu_addr[0::7] .. imu_addr[6::7]`
(lines 361-367): accelX, accelY, accelZ, temperature, gyroX, gyroY, gyroZ
with channel codes 0..6.  The call sites use only in-range codes, so the
`ValueError` branch of `encode_imu` is dead and `getD 0` is never taken. -/
def septetWords (s : ImuSample) : List ℕ :=
  [(encode_imu s.accelX 0).getD 0,
   (encode_imu s.accelY 1).getD 0,
   (encode_imu s.accelZ 2).getD 0,
   (encode_imu s.temperature 3).getD 0,
   (encode_imu s.gyroX 4).getD 0,
   (encode_imu s.gyroY 5).getD 0,
   (encode_imu s.gyroZ 6).getD 0]

/-- Concatenation of `f` over a list.  `imu_addr` (strided assignment,
lines 360-367) satisfies `imu_addr[7*j + c] = encode_imu(channel c of sample
j, c)`, i.e. it is exactly `catMap septetWords samples`; likewise
`imu_timestamps[7*j + c] = timeStamp[j]` (lines 369-372) is
`catMap (replicate 7 ∘ timeStamp) samples`. -/
def catMap (f : α → List β) : List α → List β
  | [] => []
  | a :: tl => f a ++ catMap f tl

/-- APS pixel address table `aps_xy_addresses` (lines 414-420), flattened in
row-major order: entry for row `yy`, column `xx` is
`((width-xx-1) << xShiftBits) | (yy << yShiftBits)`. -/
def apsXY (width heightFr : ℕ) : List ℕ :=
  catMap (fun yy => (List.range width).map
      (fun xx => ((width - xx - 1) <<< xShiftBits) ||| (yy <<< yShiftBits)))
    (List.range heightFr)

/-- The reset-read block `reset_fr` (lines 421-422): constant ADC value 1023,
reset-read subtype, APS discriminator, or-ed with the pixel address table. -/
def resetFrameWords (width heightFr : ℕ) : List ℕ :=
  (apsXY width heightFr).map (fun a =>
    ((1023 <<< apsAdcShift) ||| (apsResetReadSubtype <<< apsSubTypeShift) |||
      (apsImuType <<< apsDvsImuTypeShift)) ||| a)

/-- The signal-read block of one frame (lines 447-452): per-pixel value
`1023 - intensity`, rows flipped top/bottom, flattened, then or-ed with the
pixel address table, the signal-read subtype and the APS discriminator. -/
def signalFrameWords (width heightFr : ℕ) (pixels : List (List ℕ)) : List ℕ :=
  let frVec := catMap (fun row => row.map (fun p => 1023 - p)) pixels.reverse
  (apsXY width heightFr).zipWith
    (fun a v => a ||| (v <<< apsAdcShift) ||| (apsSignalReadSubtype <<< apsSubTypeShift) |||
      (apsImuType <<< apsDvsImuTypeShift)) frVec

/-! ### Timestamp merger (the while loop, lines 424-456) -/

/-- The per-stream arrays the merge loop reads: `dvs_timestamps`, `dvs_addr`,
`imu_timestamps`, `imu_addr`, `fr_timestamp`, `reset_fr`, and the per-frame
signal blocks. -/
structure MergeInput where
  dvsT : List ℤ
  dvsA : List ℕ
  imuT : List ℤ
  imuA : List ℕ
  frT : List ℤ
  resetW : List ℕ
  sigW : List (List ℕ)

/-- The DVS branch guard (lines 427-428), with the Python `and`-over-`or`
precedence made explicit:
`(id<ldvs) and ((limu==0 and nfr==0) or (ii==limu and ifr==nfr) or
(nfr==0 and ii<limu and dvs<imu) or (limu==0 and ifr<nfr and dvs<fr) or
((ii==limu or dvs<imu) and (ifr==nfr or dvs<fr)))`. -/
def dvsCond (M : MergeInput) (di mi fi : ℕ) : Prop :=
  di < M.dvsT.length ∧
    ((M.imuT.length = 0 ∧ M.frT.length = 0) ∨
      (mi = M.imuT.length ∧ fi = M.frT.length) ∨
      (M.frT.length = 0 ∧ mi < M.imuT.length ∧
        M.dvsT.getD di 0 < M.imuT.getD mi 0) ∨
      (M.imuT.length = 0 ∧ fi < M.frT.length ∧
        M.dvsT.getD di 0 < M.frT.getD fi 0) ∨
      ((mi = M.imuT.length ∨ M.dvsT.getD di 0 < M.imuT.getD mi 0) ∧
        (fi = M.frT.length ∨ M.dvsT.getD di 0 < M.frT.getD fi 0)))

instance (M : MergeInput) (di mi fi : ℕ) : Decidable (dvsCond M di mi fi) := by
  unfold dvsCond; exact inferInstance

/-- The IMU branch guard (line 436):
`(limu>0 and ii<limu) and (nfr==0 or ifr==nfr or imu<fr)`. -/
def imuCond (M : MergeInput) (mi fi : ℕ) : Prop :=
  (0 < M.imuT.length ∧ mi < M.imuT.length) ∧
    (M.frT.length = 0 ∨ fi = M.frT.length ∨
      M.imuT.getD mi 0 < M.frT.getD fi 0)

instance (M : MergeInput) (mi fi : ℕ) : Decidable (imuCond M mi fi) := by
  unfold imuCond; exact inferInstance

/-- The frame branch guard (line 444): `nfr>0 and ifr<nfr`. -/
def frCond (M : MergeInput) (fi : ℕ) : Prop :=
  0 < M.frT.length ∧ fi < M.frT.length

instance (M : MergeInput) (fi : ℕ) : Decidable (frCond M fi) := by
  unfold frCond; exact inferInstance

/-- The 7 (address, timestamp) pairs the IMU branch copies (lines 438-442):
`all_addr[i] = imu_addr[ii]`, `all_timestamps[i] = imu_timestamps[ii]` for
`ii, ii+1, …, ii+6`. -/
def imuBlock (M : MergeInput) (mi : ℕ) : List (ℕ × ℤ) :=
  (List.range 7).map (fun k => (M.imuA.getD (mi + k) 0, M.imuT.getD (mi + k) 0))

/-- The `2*fr_len` (address, timestamp) pairs the frame branch writes
(lines 446-453): reset block then signal block, all carrying the frame
timestamp `fr_timestamp[ifr]`. -/
def frBlock (M : MergeInput) (fi : ℕ) : List (ℕ × ℤ) :=
  (M.resetW ++ M.sigW.getD fi []).map (fun a => (a, M.frT.getD fi 0))

/-- One fuel-indexed unfolding of the merge `while` loop (lines 425-456).
State `(di, mi, fi)` is the cursor triple `(id, ii, ifr)`.  `none` at fuel 0
means the loop was still running; the inner `none` is the state in which the
guard holds but no branch fires, where the Python loop would spin forever. -/
def mergeGo (M : MergeInput) : ℕ → ℕ → ℕ → ℕ → Option (List (ℕ × ℤ))
  | 0, di, mi, fi =>
    if di < M.dvsT.length ∨ mi < M.imuT.length ∨ fi < M.frT.length then none
    else some []
  | fuel + 1, di, mi, fi =>
    if di < M.dvsT.length ∨ mi < M.imuT.length ∨ fi < M.frT.length then
      if dvsCond M di mi fi then
        (mergeGo M fuel (di + 1) mi fi).map
          (fun r => (M.dvsA.getD di 0, M.dvsT.getD di 0) :: r)
      else if imuCond M mi fi then
        (mergeGo M fuel di (mi + 7) fi).map (fun r => imuBlock M mi ++ r)
      else if frCond M fi then
        (mergeGo M fuel di mi (fi + 1)).map (fun r => frBlock M fi ++ r)
      else none
    else some []

/-- Assemble the arrays of `export_aedat_2` (lines 318-422) from the decoded
record buffers.  The frame geometry `(width, height)` is taken from the first
size of the first frame, `(0, 0)` when there are no frames (line 386). -/
def buildMergeInput (dvs : List DvsEvent) (imu : List ImuSample)
    (frames : List FrameRecord) (sensorH : ℕ) : MergeInput :=
  let wh : ℕ × ℕ := match frames with
    | [] => (0, 0)
    | fr :: _ => fr.size
  { dvsT := dvs.map (fun e => e.timeStamp)
    dvsA := dvs.map (dvs_addr sensorH)
    imuT := catMap (fun s => List.replicate 7 s.timeStamp) imu
    imuA := catMap septetWords imu
    frT := frames.map (fun fr => fr.timeStamp)
    resetW := resetFrameWords wh.1 wh.2
    sigW := frames.map (fun fr => signalFrameWords wh.1 wh.2 fr.samples) }

/-- The merge loop run from `(0, 0, 0)` with sufficient fuel (proved below):
the `all_addr`/`all_timestamps` pair stream of lines 424-456. -/
def runMerge (dvs : List DvsEvent) (imu : List ImuSample)
    (frames : List FrameRecord) (sensorH : ℕ) : Option (List (ℕ × ℤ)) :=
  let M := buildMergeInput dvs imu frames sensorH
  mergeGo M (M.dvsT.length + M.imuT.length + M.frT.length) 0 0 0

/-! ### Binary writer: timestamp normalization (lines 459-462) -/

/-- `all_timestamps - all_timestamps[0]` (line 461).  On an empty merge the
source indexes element 0 of an empty array, raising `IndexError`; that
out-of-bounds read is modelled by `none`. -/
def normalizeTs (l : List (ℕ × ℤ)) : Option (List (ℕ × ℤ)) :=
  match l with
  | [] => none
  | p :: _ => some (l.map (fun q => (q.1, q.2 - p.2)))

/-- `astype(int32)` on the normalized timestamps (line 462). -/
def narrowTs (l : List (ℕ × ℤ)) : List (ℕ × ℤ) :=
  l.map (fun p => (p.1, toInt32 p.2))

/-- The (address, timestamp) pairs as written to the file: merge, subtract
the first timestamp, narrow to `int32`. -/
def exportPairs (dvs : List DvsEvent) (imu : List ImuSample)
    (frames : List FrameRecord) (sensorH : ℕ) : Option (List (ℕ × ℤ)) :=
  ((runMerge dvs imu frames sensorH).bind normalizeTs).map narrowTs

/-- The minimum of a timestamp list (0 for the empty list), used to state
the normalization claims. -/
def listMin : List ℤ → ℤ
  | [] => 0
  | t :: tl => tl.foldl min t

/-! ### The frame permutation step of `main` (lines 216-219) -/

/-- `np.transpose(np.squeeze(np.array(samples)), (1, 2, 0))` at line 216.
The stacked array has shape `(n, h, w)` (after the trailing singleton channel
axis of each `(h, w, 1)` image is dropped); `np.squeeze` removes every
remaining singleton axis, so whenever `n = 1` (a single-frame recording) —
or `h = 1` or `w = 1`, or there are no frames at all — the squeezed array
does not have 3 axes and `np.transpose` with axes `(1, 2, 0)` raises
`ValueError`, modelled by `none`.  Otherwise the result holds the pixel
samples arranged `[y][x][frame]`. -/
def mainFramePrep (frames : List FrameRecord) : Option (List (List (List ℕ))) :=
  match frames with
  | [] => none
  | fr :: _ =>
    let n := frames.length
    let h := fr.samples.length
    let w := (fr.samples.headD []).length
    if 1 < n ∧ 1 < h ∧ 1 < w then
      some ((List.range h).map (fun y => (List.range w).map (fun x =>
        frames.map (fun f => (f.samples.getD y []).getD x 0))))
    else none

/-! ### Decoders and spec-side definitions used to state the claims -/

/-- Claim-side DVS decoder: bits [21:12] of the address word. -/
def decodeDvsX (a : ℕ) : ℕ := (a >>> xShiftBits) % 2 ^ 10

/-- Claim-side DVS decoder: bit 11 of the address word. -/
def decodeDvsPol (a : ℕ) : ℕ := (a >>> polShiftBits) % 2

/-- Claim-side DVS decoder: bits [30:22] of the address word (the flipped
y coordinate). -/
def decodeDvsYFlip (a : ℕ) : ℕ := (a >>> yShiftBits) % 2 ^ 9

/-- The quantization the claim describes: description: acceleration channels multiply by
the sensitivity constant (accelX negated), temperature multiplies by the
scale constant and subtracts the offset constant, gyroscope channels
multiply by the degrees-per-second sensitivity constant; truncate to a
signed 16-bit integer. -/
def imuQuantSpec (v : ℚ) (code : ℕ) : ℤ :=
  if code = 0 then toInt16 (ratTrunc (-(v) * 8192))
  else if code ≤ 2 then toInt16 (ratTrunc (v * 8192))
  else if code = 3 then toInt16 (ratTrunc (v * 340 - 35))
  else toInt16 (ratTrunc (v * (131 / 2)))

/-- The packing formula of the claim:
`(quantized_i16 & 0xFFFF) << 12 | channel_code << 28 | imu_subtype << 10 | 1 << 31`. -/
def imuWordSpec (v : ℚ) (code : ℕ) : ℕ :=
  ((land16 (imuQuantSpec v code)) <<< 12) ||| (code <<< 28) ||| (3 <<< 10) ||| (1 <<< 31)

/-- The 7 (address, timestamp) pairs of one IMU sample: its septet in channel
order, every word carrying the timestamp of the sample. -/
def septetPairs (s : ImuSample) : List (ℕ × ℤ) :=
  (septetWords s).map (fun a => (a, s.timeStamp))

/-- `s` occurs contiguously inside `l`. -/
def SegmentOf (s l : List α) : Prop := ∃ u v, l = u ++ s ++ v

/-- Placeholder sample used as the `getD` default in index lemmas. -/
def dfltImu : ImuSample := ⟨0, 0, 0, 0, 0, 0, 0, 0⟩

/-! ### Concrete inputs used by counterexamples and witnesses -/

/-- A DVS event at t = 100 µs (x = 10, y = 20, ON polarity). -/
def tieDvs : DvsEvent := ⟨100, 10, 20, true⟩

/-- An IMU sample at t = 100 µs (all channels 0). -/
def tieImu : ImuSample := ⟨0, 0, 0, 0, 0, 0, 0, 100⟩

/-- A 2×2 frame at t = 100 µs. -/
def tieFrameA : FrameRecord := ⟨100, (2, 2), [[10, 20], [30, 40]]⟩

/-- A 2×2 frame at t = 200 µs. -/
def tieFrameB : FrameRecord := ⟨200, (2, 2), [[0, 0], [0, 0]]⟩

/-- Scenario C input: one 2×2 frame at t = 1000 µs, every pixel 255. -/
def scenarioCFrame : FrameRecord := ⟨1000, (2, 2), [[255, 255], [255, 255]]⟩

/-- An IMU sample with distinct nonzero channel values at t = 500 µs. -/
def sampleB : ImuSample := ⟨1, 2, 3, 4, 5, 6, 7, 500⟩

/-! ### Structural lemmas about the encoded per-stream arrays -/

theorem catMap_length (f : α → List β) (h7 : ∀ a, (f a).length = 7) (l : List α) :
    (catMap f l).length = 7 * l.length := by
  induction l with
  | nil => rfl
  | cons a tl ih => simp only [catMap, List.length_append, h7, ih, List.length_cons]; ring

theorem catMap_getD (f : α → List β) (h7 : ∀ a, (f a).length = 7) (l : List α)
    (dflt : α) (d : β) :
    ∀ j c, c < 7 → j < l.length → (catMap f l).getD (7 * j + c) d = (f (l.getD j dflt)).getD c d := by
  induction l with
  | nil => intro j c _ hj; simp at hj
  | cons a tl ih =>
    intro j c hc hj
    cases j with
    | zero =>
      simp only [Nat.mul_zero, Nat.zero_add, catMap]
      rw [List.getD_append _ _ _ _ (by rw [h7 a]; omega)]
      rfl
    | succ j =>
      have hidx : 7 * (j + 1) + c = (f a).length + (7 * j + c) := by rw [h7 a]; ring
      simp only [catMap, hidx]
      rw [List.getD_append_right _ _ _ _ (by omega), Nat.add_sub_cancel_left]
      exact ih j c hc (by simpa using hj)

theorem replicate_getD (t : ℤ) (c : ℕ) (hc : c < 7) : (List.replicate 7 t).getD c 0 = t := by
  interval_cases c <;> rfl

theorem catMap_replicate_getD (its : List ℤ) (j c : ℕ) (hc : c < 7) (hj : j < its.length) :
    (catMap (fun t => List.replicate 7 t) its).getD (7 * j + c) 0 = its.getD j 0 := by
  rw [catMap_getD (fun t => List.replicate 7 t) (fun t => List.length_replicate 7 t) its 0 0 j c hc hj]
  exact replicate_getD _ c hc

theorem septetWords_length (s : ImuSample) : (septetWords s).length = 7 := rfl

theorem catMap_septet_getD (imu : List ImuSample) (j c : ℕ) (hc : c < 7) (hj : j < imu.length) :
    (catMap septetWords imu).getD (7 * j + c) 0 = (septetWords (imu.getD j dfltImu)).getD c 0 :=
  catMap_getD septetWords septetWords_length imu dfltImu 0 j c hc hj

theorem buildMergeInput_dvsT (dvs : List DvsEvent) (imu : List ImuSample)
    (frames : List FrameRecord) (sensorH : ℕ) :
    (buildMergeInput dvs imu frames sensorH).dvsT = dvs.map (fun e => e.timeStamp) := rfl

theorem buildMergeInput_dvsA (dvs : List DvsEvent) (imu : List ImuSample)
    (frames : List FrameRecord) (sensorH : ℕ) :
    (buildMergeInput dvs imu frames sensorH).dvsA = dvs.map (dvs_addr sensorH) := rfl

theorem buildMergeInput_imuT (dvs : List DvsEvent) (imu : List ImuSample)
    (frames : List FrameRecord) (sensorH : ℕ) :
    (buildMergeInput dvs imu frames sensorH).imuT =
      catMap (fun s => List.replicate 7 s.timeStamp) imu := rfl

theorem buildMergeInput_imuA (dvs : List DvsEvent) (imu : List ImuSample)
    (frames : List FrameRecord) (sensorH : ℕ) :
    (buildMergeInput dvs imu frames sensorH).imuA = catMap septetWords imu := rfl

theorem buildMergeInput_frT (dvs : List DvsEvent) (imu : List ImuSample)
    (frames : List FrameRecord) (sensorH : ℕ) :
    (buildMergeInput dvs imu frames sensorH).frT = frames.map (fun fr => fr.timeStamp) := rfl

theorem imuT_length (dvs : List DvsEvent) (imu : List ImuSample)
    (frames : List FrameRecord) (sensorH : ℕ) :
    (buildMergeInput dvs imu frames sensorH).imuT.length = 7 * imu.length := by
  rw [buildMergeInput_imuT]
  exact catMap_length _ (fun t => List.length_replicate 7 _) imu

/-! ### Branch-condition lemmas for the merge loop -/

theorem branch_progress (M : MergeInput) (di mi fi : ℕ)
    (hmi : mi ≤ M.imuT.length) (hfi : fi ≤ M.frT.length)
    (hg : di < M.dvsT.length ∨ mi < M.imuT.length ∨ fi < M.frT.length) :
    dvsCond M di mi fi ∨ imuCond M mi fi ∨ frCond M fi := by
  unfold dvsCond imuCond frCond
  omega

theorem mergeGo_total (M : MergeInput) (h7len : 7 ∣ M.imuT.length) :
    ∀ fuel di mi fi, 7 ∣ mi → mi ≤ M.imuT.length → fi ≤ M.frT.length →
      (M.dvsT.length - di) + (M.imuT.length - mi) + (M.frT.length - fi) ≤ fuel →
      ∃ l, mergeGo M fuel di mi fi = some l := by
  intro fuel
  induction fuel with
  | zero =>
    intro di mi fi _ _ _ hfuel
    have hg : ¬(di < M.dvsT.length ∨ mi < M.imuT.length ∨ fi < M.frT.length) := by omega
    exact ⟨[], by simp only [mergeGo]; rw [if_neg hg]⟩
  | succ fuel ih =>
    intro di mi fi h7 hmi hfi hfuel
    by_cases hg : di < M.dvsT.length ∨ mi < M.imuT.length ∨ fi < M.frT.length
    · simp only [mergeGo]
      rw [if_pos hg]
      by_cases hdvs : dvsCond M di mi fi
      · rw [if_pos hdvs]
        have hdi : di < M.dvsT.length := hdvs.1
        obtain ⟨l, hl⟩ := ih (di + 1) mi fi h7 hmi hfi (by omega)
        exact ⟨_, by rw [hl]; rfl⟩
      · rw [if_neg hdvs]
        by_cases himu : imuCond M mi fi
        · rw [if_pos himu]
          have hmi' : mi < M.imuT.length := himu.1.2
          obtain ⟨l, hl⟩ := ih di (mi + 7) fi (by omega) (by omega) hfi (by omega)
          exact ⟨_, by rw [hl]; rfl⟩
        · have hfr : frCond M fi := by
            rcases branch_progress M di mi fi hmi hfi hg with h | h | h
            · exact absurd h hdvs
            · exact absurd h himu
            · exact h
          rw [if_neg himu, if_pos hfr]
          have hfi' : fi < M.frT.length := hfr.2
          obtain ⟨l, hl⟩ := ih di mi (fi + 1) h7 hmi (by omega) (by omega)
          exact ⟨_, by rw [hl]; rfl⟩
    · exact ⟨[], by simp only [mergeGo]; rw [if_neg hg]⟩

theorem runMerge_total (dvs : List DvsEvent) (imu : List ImuSample)
    (frames : List FrameRecord) (sensorH : ℕ) :
    ∃ l, runMerge dvs imu frames sensorH = some l := by
  have h7len : 7 ∣ (buildMergeInput dvs imu frames sensorH).imuT.length :=
    ⟨imu.length, imuT_length dvs imu frames sensorH⟩
  exact mergeGo_total (buildMergeInput dvs imu frames sensorH) h7len _ 0 0 0
    ⟨0, rfl⟩ (Nat.zero_le _) (Nat.zero_le _) (by omega)

/-! ### The merge output is sorted by timestamp -/

theorem mergeGo_sorted (M : MergeInput) (its : List ℤ)
    (hT : M.imuT = catMap (fun t => List.replicate 7 t) its)
    (hd : ∀ j k, j ≤ k → k < M.dvsT.length → M.dvsT.getD j 0 ≤ M.dvsT.getD k 0)
    (hi : ∀ j k, j ≤ k → k < its.length → its.getD j 0 ≤ its.getD k 0)
    (hf : ∀ j k, j ≤ k → k < M.frT.length → M.frT.getD j 0 ≤ M.frT.getD k 0) :
    ∀ fuel di mi fi (lb : ℤ) l,
      7 ∣ mi → mi ≤ M.imuT.length → fi ≤ M.frT.length →
      (di < M.dvsT.length → lb ≤ M.dvsT.getD di 0) →
      (mi < M.imuT.length → lb ≤ M.imuT.getD mi 0) →
      (fi < M.frT.length → lb ≤ M.frT.getD fi 0) →
      mergeGo M fuel di mi fi = some l →
      l.Pairwise (fun p q : ℕ × ℤ => p.2 ≤ q.2) ∧ ∀ p ∈ l, lb ≤ p.2 := by
  have hlen : M.imuT.length = 7 * its.length := by
    rw [hT]; exact catMap_length _ (fun t => List.length_replicate 7 t) its
  have hblock : ∀ mi k, 7 ∣ mi → mi < M.imuT.length → k < 7 →
      M.imuT.getD (mi + k) 0 = M.imuT.getD mi 0 := by
    intro mi k h7 hmi hk
    obtain ⟨j, rfl⟩ := h7
    have hj : j < its.length := by omega
    rw [hT, catMap_replicate_getD its j k hk hj]
    exact (catMap_replicate_getD its j 0 (by omega) hj).symm
  intro fuel
  induction fuel with
  | zero =>
    intro di mi fi lb l _ _ _ _ _ _ hrun
    simp only [mergeGo] at hrun
    by_cases hg : di < M.dvsT.length ∨ mi < M.imuT.length ∨ fi < M.frT.length
    · rw [if_pos hg] at hrun; cases hrun
    · rw [if_neg hg] at hrun
      simp only [Option.some.injEq] at hrun
      subst hrun
      exact ⟨List.Pairwise.nil, by simp⟩
  | succ fuel ih =>
    intro di mi fi lb l h7 hmi hfi hlbd hlbm hlbf hrun
    simp only [mergeGo] at hrun
    by_cases hg : di < M.dvsT.length ∨ mi < M.imuT.length ∨ fi < M.frT.length
    · rw [if_pos hg] at hrun
      by_cases hdvs : dvsCond M di mi fi
      · rw [if_pos hdvs] at hrun
        cases hrec : mergeGo M fuel (di + 1) mi fi with
        | none => rw [hrec] at hrun; simp only [Option.map_none'] at hrun; cases hrun
        | some r =>
          rw [hrec] at hrun
          simp only [Option.map_some', Option.some.injEq] at hrun
          subst hrun
          have hdi : di < M.dvsT.length := hdvs.1
          have hmle : mi < M.imuT.length → M.dvsT.getD di 0 < M.imuT.getD mi 0 := by
            intro h; unfold dvsCond at hdvs; omega
          have hfle : fi < M.frT.length → M.dvsT.getD di 0 < M.frT.getD fi 0 := by
            intro h; unfold dvsCond at hdvs; omega
          obtain ⟨hpair, hlbrec⟩ := ih (di + 1) mi fi (M.dvsT.getD di 0) r h7 hmi hfi
            (fun h => hd di (di + 1) (by omega) h)
            (fun h => le_of_lt (hmle h)) (fun h => le_of_lt (hfle h)) hrec
          refine ⟨?_, ?_⟩
          · rw [List.pairwise_cons]
            exact ⟨fun q hq => hlbrec q hq, hpair⟩
          · intro p hp
            rcases List.mem_cons.mp hp with rfl | hmem
            · exact hlbd hdi
            · exact le_trans (hlbd hdi) (hlbrec p hmem)
      · rw [if_neg hdvs] at hrun
        by_cases himu : imuCond M mi fi
        · rw [if_pos himu] at hrun
          cases hrec : mergeGo M fuel di (mi + 7) fi with
          | none => rw [hrec] at hrun; simp only [Option.map_none'] at hrun; cases hrun
          | some r =>
            rw [hrec] at hrun
            simp only [Option.map_some', Option.some.injEq] at hrun
            subst hrun
            have hmi' : mi < M.imuT.length := himu.1.2
            have htd : di < M.dvsT.length → M.imuT.getD mi 0 ≤ M.dvsT.getD di 0 := by
              intro h; unfold dvsCond at hdvs; unfold imuCond at himu; omega
            have htf : fi < M.frT.length → M.imuT.getD mi 0 ≤ M.frT.getD fi 0 := by
              intro h; unfold imuCond at himu; omega
            have htm : mi + 7 < M.imuT.length →
                M.imuT.getD mi 0 ≤ M.imuT.getD (mi + 7) 0 := by
              intro h
              obtain ⟨j, hj7⟩ := h7
              have hj1 : j < its.length := by omega
              have hj2 : j + 1 < its.length := by omega
              have g1 : M.imuT.getD mi 0 = its.getD j 0 := by
                rw [hj7, hT]; exact catMap_replicate_getD its j 0 (by omega) hj1
              have g2 : M.imuT.getD (mi + 7) 0 = its.getD (j + 1) 0 := by
                rw [hj7, hT]
                have e2 := catMap_replicate_getD its (j + 1) 0 (by omega) hj2
                rw [show 7 * (j + 1) + 0 = 7 * j + 7 from by ring] at e2
                exact e2
              rw [g1, g2]
              exact hi j (j + 1) (by omega) hj2
            have hbt : ∀ p ∈ imuBlock M mi, p.2 = M.imuT.getD mi 0 := by
              intro p hp
              simp only [imuBlock, List.mem_map, List.mem_range] at hp
              obtain ⟨k, hk, rfl⟩ := hp
              exact hblock mi k h7 hmi' hk
            obtain ⟨hpair, hlbrec⟩ := ih di (mi + 7) fi (M.imuT.getD mi 0) r
              (by omega) (by omega) hfi htd htm htf hrec
            refine ⟨?_, ?_⟩
            · rw [List.pairwise_append]
              refine ⟨?_, hpair, ?_⟩
              · exact List.pairwise_of_forall_mem_list
                  (fun p hp q hq => by rw [hbt p hp, hbt q hq])
              · intro p hp q hq
                rw [hbt p hp]
                exact hlbrec q hq
            · intro p hp
              rcases List.mem_append.mp hp with hmem | hmem
              · rw [hbt p hmem]; exact hlbm hmi'
              · exact le_trans (hlbm hmi') (hlbrec p hmem)
        · rw [if_neg himu] at hrun
          by_cases hfr : frCond M fi
          · rw [if_pos hfr] at hrun
            cases hrec : mergeGo M fuel di mi (fi + 1) with
            | none => rw [hrec] at hrun; simp only [Option.map_none'] at hrun; cases hrun
            | some r =>
              rw [hrec] at hrun
              simp only [Option.map_some', Option.some.injEq] at hrun
              subst hrun
              have hfi' : fi < M.frT.length := hfr.2
              have htd : di < M.dvsT.length → M.frT.getD fi 0 ≤ M.dvsT.getD di 0 := by
                intro h; unfold dvsCond at hdvs; unfold imuCond at himu; omega
              have htm : mi < M.imuT.length → M.frT.getD fi 0 ≤ M.imuT.getD mi 0 := by
                intro h; unfold imuCond at himu; omega
              have htf : fi + 1 < M.frT.length →
                  M.frT.getD fi 0 ≤ M.frT.getD (fi + 1) 0 :=
                fun h => hf fi (fi + 1) (by omega) h
              have hbt : ∀ p ∈ frBlock M fi, p.2 = M.frT.getD fi 0 := by
                intro p hp
                simp only [frBlock, List.mem_map] at hp
                obtain ⟨a, _, rfl⟩ := hp
                rfl
              obtain ⟨hpair, hlbrec⟩ := ih di mi (fi + 1) (M.frT.getD fi 0) r
                h7 hmi (by omega) htd htm htf hrec
              refine ⟨?_, ?_⟩
              · rw [List.pairwise_append]
                refine ⟨?_, hpair, ?_⟩
                · exact List.pairwise_of_forall_mem_list
                    (fun p hp q hq => by rw [hbt p hp, hbt q hq])
                · intro p hp q hq
                  rw [hbt p hp]
                  exact hlbrec q hq
              · intro p hp
                rcases List.mem_append.mp hp with hmem | hmem
                · rw [hbt p hmem]; exact hlbf hfi'
                · exact le_trans (hlbf hfi') (hlbrec p hmem)
          · rw [if_neg hfr] at hrun; cases hrun
    · rw [if_neg hg] at hrun
      simp only [Option.some.injEq] at hrun
      subst hrun
      exact ⟨List.Pairwise.nil, by simp⟩

/-! ### Every IMU septet survives as a contiguous segment of the merge -/

theorem mergeGo_imu_segment (M : MergeInput) :
    ∀ fuel di mi fi l, 7 ∣ mi → mergeGo M fuel di mi fi = some l →
      ∀ j, mi ≤ 7 * j → 7 * j < M.imuT.length →
        SegmentOf (imuBlock M (7 * j)) l := by
  intro fuel
  induction fuel with
  | zero =>
    intro di mi fi l _ hrun j hj1 hj2
    have hg : di < M.dvsT.length ∨ mi < M.imuT.length ∨ fi < M.frT.length :=
      Or.inr (Or.inl (by omega))
    simp only [mergeGo] at hrun
    rw [if_pos hg] at hrun
    cases hrun
  | succ fuel ih =>
    intro di mi fi l h7 hrun j hj1 hj2
    have hg : di < M.dvsT.length ∨ mi < M.imuT.length ∨ fi < M.frT.length :=
      Or.inr (Or.inl (by omega))
    simp only [mergeGo] at hrun
    rw [if_pos hg] at hrun
    by_cases hdvs : dvsCond M di mi fi
    · rw [if_pos hdvs] at hrun
      cases hrec : mergeGo M fuel (di + 1) mi fi with
      | none => rw [hrec] at hrun; simp only [Option.map_none'] at hrun; cases hrun
      | some r =>
        rw [hrec] at hrun
        simp only [Option.map_some', Option.some.injEq] at hrun
        subst hrun
        obtain ⟨u, v, huv⟩ := ih (di + 1) mi fi r h7 hrec j hj1 hj2
        exact ⟨(M.dvsA.getD di 0, M.dvsT.getD di 0) :: u, v, by rw [huv]; rfl⟩
    · rw [if_neg hdvs] at hrun
      by_cases himu : imuCond M mi fi
      · rw [if_pos himu] at hrun
        cases hrec : mergeGo M fuel di (mi + 7) fi with
        | none => rw [hrec] at hrun; simp only [Option.map_none'] at hrun; cases hrun
        | some r =>
          rw [hrec] at hrun
          simp only [Option.map_some', Option.some.injEq] at hrun
          subst hrun
          by_cases hj : mi = 7 * j
          · exact ⟨[], r, by rw [hj]; simp⟩
          · obtain ⟨u, v, huv⟩ := ih di (mi + 7) fi r (by omega) hrec j (by omega) hj2
            exact ⟨imuBlock M mi ++ u, v, by rw [huv]; simp [List.append_assoc]⟩
      · rw [if_neg himu] at hrun
        by_cases hfr : frCond M fi
        · rw [if_pos hfr] at hrun
          cases hrec : mergeGo M fuel di mi (fi + 1) with
          | none => rw [hrec] at hrun; simp only [Option.map_none'] at hrun; cases hrun
          | some r =>
            rw [hrec] at hrun
            simp only [Option.map_some', Option.some.injEq] at hrun
            subst hrun
            obtain ⟨u, v, huv⟩ := ih di mi (fi + 1) r h7 hrec j hj1 hj2
            exact ⟨frBlock M fi ++ u, v, by rw [huv]; simp [List.append_assoc]⟩
        · rw [if_neg hfr] at hrun; cases hrun

/-- In the merge input built from the decoded buffers, the IMU block starting
at word index `7*j` is exactly the septet of sample `j`, every word carrying
the timestamp of that sample. -/
theorem imuBlock_eq (dvs : List DvsEvent) (imu : List ImuSample)
    (frames : List FrameRecord) (sensorH : ℕ) (j : ℕ) (hj : j < imu.length) :
    imuBlock (buildMergeInput dvs imu frames sensorH) (7 * j) =
      septetPairs (imu.getD j dfltImu) := by
  apply List.ext_getElem
  · simp [imuBlock, septetPairs, septetWords]
  · intro i h1 h2
    simp only [imuBlock, List.length_map, List.length_range] at h1
    simp only [imuBlock, List.getElem_map, List.getElem_range]
    have hA : (buildMergeInput dvs imu frames sensorH).imuA.getD (7 * j + i) 0 =
        (septetWords (imu.getD j dfltImu)).getD i 0 := by
      rw [buildMergeInput_imuA]
      exact catMap_septet_getD imu j i h1 hj
    have hB : (buildMergeInput dvs imu frames sensorH).imuT.getD (7 * j + i) 0 =
        (imu.getD j dfltImu).timeStamp := by
      rw [buildMergeInput_imuT]
      have := catMap_getD (fun s : ImuSample => List.replicate 7 s.timeStamp)
        (fun s => List.length_replicate 7 s.timeStamp) imu dfltImu 0 j i h1 hj
      rw [this]
      exact replicate_getD _ i h1
    rw [hA, hB]
    simp only [septetPairs, List.getElem_map]
    rw [List.getD_eq_getElem _ _ (by rw [septetWords_length]; exact h1)]

/-! ### Pipeline-level corollaries -/

theorem pairwise_getD_mono (l : List ℤ) (h : l.Pairwise (fun a b => a ≤ b))
    (j k : ℕ) (hjk : j ≤ k) (hk : k < l.length) : l.getD j 0 ≤ l.getD k 0 := by
  rcases Nat.eq_or_lt_of_le hjk with rfl | hlt
  · exact le_refl _
  · rw [List.getD_eq_getElem l 0 (by omega), List.getD_eq_getElem l 0 hk]
    exact List.pairwise_iff_getElem.mp h j k (by omega) hk hlt

theorem catMap_replicate_map (imu : List ImuSample) :
    catMap (fun s => List.replicate 7 s.timeStamp) imu =
      catMap (fun t => List.replicate 7 t) (imu.map (fun s => s.timeStamp)) := by
  induction imu with
  | nil => rfl
  | cons s tl ih => simp only [catMap, List.map_cons, ih]

/-- The merge output of record buffers with individually sorted timestamp
streams is sorted by timestamp. -/
theorem runMerge_pairwise (dvs : List DvsEvent) (imu : List ImuSample)
    (frames : List FrameRecord) (sensorH : ℕ)
    (hd : (dvs.map (fun e => e.timeStamp)).Pairwise (fun a b => a ≤ b))
    (hi : (imu.map (fun s => s.timeStamp)).Pairwise (fun a b => a ≤ b))
    (hf : (frames.map (fun fr => fr.timeStamp)).Pairwise (fun a b => a ≤ b))
    (l : List (ℕ × ℤ)) (hl : runMerge dvs imu frames sensorH = some l) :
    l.Pairwise (fun p q : ℕ × ℤ => p.2 ≤ q.2) := by
  set M := buildMergeInput dvs imu frames sensorH with hM
  set lb : ℤ := min (min (M.dvsT.getD 0 0) (M.imuT.getD 0 0)) (M.frT.getD 0 0) with hlb
  have hT : M.imuT = catMap (fun t => List.replicate 7 t) (imu.map (fun s => s.timeStamp)) := by
    rw [hM, buildMergeInput_imuT]
    exact catMap_replicate_map imu
  have hmono := mergeGo_sorted M (imu.map (fun s => s.timeStamp)) hT
    (fun j k hjk hk => pairwise_getD_mono _ (by rw [hM, buildMergeInput_dvsT] at *; exact hd) j k hjk hk)
    (fun j k hjk hk => pairwise_getD_mono _ hi j k hjk hk)
    (fun j k hjk hk => pairwise_getD_mono _ (by rw [hM, buildMergeInput_frT] at *; exact hf) j k hjk hk)
    (M.dvsT.length + M.imuT.length + M.frT.length) 0 0 0 lb l
    ⟨0, rfl⟩ (Nat.zero_le _) (Nat.zero_le _)
    (fun _ => by rw [hlb]; exact le_trans (min_le_left _ _) (min_le_left _ _))
    (fun _ => by rw [hlb]; exact le_trans (min_le_left _ _) (min_le_right _ _))
    (fun _ => by rw [hlb]; exact min_le_right _ _)
    hl
  exact hmono.1

theorem foldl_min_const (t : ℤ) (tl : List ℤ) (h : ∀ x ∈ tl, t ≤ x) :
    tl.foldl min t = t := by
  induction tl generalizing t with
  | nil => rfl
  | cons a tl ih =>
    simp only [List.foldl_cons]
    rw [min_eq_left (h a (by simp))]
    exact ih t (fun x hx => h x (by simp [hx]))

/-- For a nonempty timestamp-sorted pair list, `listMin` of the timestamps is
the first timestamp. -/
theorem listMin_of_sorted (p : ℕ × ℤ) (tl : List (ℕ × ℤ))
    (h : (p :: tl).Pairwise (fun a b : ℕ × ℤ => a.2 ≤ b.2)) :
    listMin ((p :: tl).map (fun q => q.2)) = p.2 := by
  simp only [List.map_cons, listMin]
  apply foldl_min_const
  intro x hx
  simp only [List.mem_map] at hx
  obtain ⟨q, hq, rfl⟩ := hx
  exact (List.pairwise_cons.mp h).1 q hq

/-! ### DVS address arithmetic -/

/-- When the coordinate fields fit their bit ranges, the or-ed DVS address
word is the plain sum of its shifted fields. -/
theorem dvs_addr_arith (height : ℕ) (e : DvsEvent) (hx : e.x < 2 ^ 10)
    (hy : e.y < height) (hh : height ≤ 2 ^ 9) :
    dvs_addr height e =
      (height - 1 - e.y) * 2 ^ 22 + e.x * 2 ^ 12 +
        (if e.polarity then 1 else 0) * 2 ^ 11 := by
  have hu : height - 1 - e.y < 2 ^ 9 := by omega
  have hp : (if e.polarity then 1 else 0) ≤ 1 := by split <;> omega
  unfold dvs_addr dvsType yShiftBits xShiftBits polShiftBits apsDvsImuTypeShift
  rw [Nat.shiftLeft_eq, Nat.shiftLeft_eq, Nat.shiftLeft_eq, Nat.shiftLeft_eq]
  rw [Nat.zero_mul, Nat.or_zero]
  rw [Nat.mod_eq_of_lt (by omega : (height - 1 - e.y) * 2 ^ 22 < 2 ^ 32)]
  rw [Nat.mod_eq_of_lt (by omega : e.x * 2 ^ 12 < 2 ^ 32)]
  rw [Nat.mod_eq_of_lt (by omega : (if e.polarity then 1 else 0) * 2 ^ 11 < 2 ^ 32)]
  have s1 : (height - 1 - e.y) * 2 ^ 22 ||| e.x * 2 ^ 12 =
      (height - 1 - e.y) * 2 ^ 22 + e.x * 2 ^ 12 := by
    have h := Nat.mul_add_lt_is_or (show e.x * 2 ^ 12 < 2 ^ 22 by omega) (height - 1 - e.y)
    rw [Nat.mul_comm (2 ^ 22)] at h
    exact h.symm
  have s2 : (height - 1 - e.y) * 2 ^ 22 + e.x * 2 ^ 12 ||| (if e.polarity then 1 else 0) * 2 ^ 11 =
      (height - 1 - e.y) * 2 ^ 22 + e.x * 2 ^ 12 + (if e.polarity then 1 else 0) * 2 ^ 11 := by
    have hrepr : (height - 1 - e.y) * 2 ^ 22 + e.x * 2 ^ 12 =
        2 ^ 12 * ((height - 1 - e.y) * 2 ^ 10 + e.x) := by ring
    have h := Nat.mul_add_lt_is_or
      (show (if e.polarity then 1 else 0) * 2 ^ 11 < 2 ^ 12 by omega)
      ((height - 1 - e.y) * 2 ^ 10 + e.x)
    rw [← hrepr] at h
    exact h.symm
  rw [s1, s2]

/-! ### Claim theorems -/

/-- Claim C5 (status: code bug).  When all three streams are empty the merge
produces zero words, and the normalization step does not detect this: it
performs the out-of-bounds read `all_timestamps[0]` (modelled by
`normalizeTs [] = none`, the `IndexError`).  No `EmptyRecordingError` is
raised or even defined in the program. -/
theorem c5_empty_merge_oob :
    runMerge [] [] [] 346 = some [] ∧ normalizeTs ([] : List (ℕ × ℤ)) = none :=
  ⟨rfl, rfl⟩

/-- Claim C7 (status: code bug).  For the Scenario C input — exactly one 2×2
frame at t = 1000 with every pixel 255, no DVS events, no IMU samples — the
frame permutation step of `main` (line 216) fails: `np.squeeze` collapses the
single-frame stack to a 2-D array and `np.transpose(…, (1, 2, 0))` raises
`ValueError` (`mainFramePrep = none`), so the program produces no output.
The downstream export logic alone, fed the same frame, would produce exactly
the 8 word-pairs the claim describes: all normalized timestamps 0, the first
4 words carrying 1023 in the ADC field, the last 4 carrying 1023-255 = 768. -/
theorem c7_single_frame_prep_fails :
    mainFramePrep [scenarioCFrame] = none ∧
    (exportPairs [] [] [scenarioCFrame] 260).isSome = true ∧
    ((exportPairs [] [] [scenarioCFrame] 260).getD []).length = 8 ∧
    (∀ p ∈ (exportPairs [] [] [scenarioCFrame] 260).getD [], p.2 = 0) ∧
    (∀ p ∈ ((exportPairs [] [] [scenarioCFrame] 260).getD []).take 4,
      p.1 % 2 ^ 10 = 1023) ∧
    (∀ p ∈ ((exportPairs [] [] [scenarioCFrame] 260).getD []).drop 4,
      p.1 % 2 ^ 10 = 768) := by
  refine ⟨rfl, rfl, rfl, ?_, ?_, ?_⟩ <;> decide

/-- Claim C9 (status: confirmed).  For every channel value and channel code
0..6, `encode_imu` returns exactly the packing formula the claim states
`(quantized_i16 & 0xFFFF) << 12 | code << 28 | imu_subtype << 10 | 1 << 31`
with the per-channel quantization the claim describes; for a code outside 0..6 it fails
(the `ValueError` branch, modelled by `none`). -/
theorem c9_encode_imu_spec (v : ℚ) (code : ℕ) :
    (code ≤ 6 → encode_imu v code = some (imuWordSpec v code)) ∧
    (6 < code → encode_imu v code = none) := by
  constructor
  · intro hc
    interval_cases code <;> rfl
  · intro hc
    have h0 : ¬ code = 0 := by omega
    have h12 : ¬ (code = 1 ∨ code = 2) := by omega
    have h3 : ¬ code = 3 := by omega
    have h456 : ¬ (code = 4 ∨ code = 5 ∨ code = 6) := by omega
    simp only [encode_imu, if_neg h0, if_neg h12, if_neg h3, if_neg h456]

/-- Witness for C9 at concrete inputs: channel value 1/2, codes 0 and 7. -/
theorem c9_encode_imu_spec_witness :
    encode_imu (1 / 2) 0 = some (imuWordSpec (1 / 2) 0) ∧ encode_imu (1 / 2) 7 = none :=
  ⟨(c9_encode_imu_spec (1 / 2) 0).1 (by omega), (c9_encode_imu_spec (1 / 2) 7).2 (by omega)⟩

/-- Claim C8 counterexample (status: corrected).  The claim quantifies over
every `0 ≤ x < width`: for sensor geometry width 2048, height 1, the event
`x = 1024, y = 0, polarity = 0` satisfies the premises of the claim, but the
encoded x field (bits [21:12], 10 bits wide) overflows into the y field and
decodes to 0, not 1024. -/
theorem c8_counterexample :
    (1024 < 2048 ∧ 0 < 1) ∧
    decodeDvsX (dvs_addr 1 ⟨0, 1024, 0, false⟩) = 0 ∧
    decodeDvsX (dvs_addr 1 ⟨0, 1024, 0, false⟩) ≠ 1024 := by
  refine ⟨by omega, ?_, ?_⟩ <;> decide

/-- Claim C8 as amended: the round-trip holds once the coordinates fit the
address fields, i.e. `x < 2^10` (the x field is bits [21:12]) and
`height ≤ 2^9` (the flipped y field is bits [30:22]).  Decoding then recovers
`x`, the polarity bit, and `y` via the inverse flip `y = (height-1) -
y_flipped`. -/
theorem c8_dvs_roundtrip (height : ℕ) (e : DvsEvent) (hx : e.x < 2 ^ 10)
    (hy : e.y < height) (hh : height ≤ 2 ^ 9) :
    decodeDvsX (dvs_addr height e) = e.x ∧
    decodeDvsPol (dvs_addr height e) = (if e.polarity then 1 else 0) ∧
    height - 1 - decodeDvsYFlip (dvs_addr height e) = e.y := by
  have harith := dvs_addr_arith height e hx hy hh
  have hu : height - 1 - e.y < 2 ^ 9 := by omega
  have hp : (if e.polarity then 1 else 0) ≤ 1 := by split <;> omega
  unfold decodeDvsX decodeDvsPol decodeDvsYFlip xShiftBits polShiftBits yShiftBits
  rw [harith, Nat.shiftRight_eq_div_pow, Nat.shiftRight_eq_div_pow,
    Nat.shiftRight_eq_div_pow]
  refine ⟨by omega, by omega, by omega⟩

/-- Witness for C8 as amended, at the DAVIS346 geometry (height 260) with
`x = 345, y = 100`, ON polarity. -/
theorem c8_dvs_roundtrip_witness :
    decodeDvsX (dvs_addr 260 ⟨0, 345, 100, true⟩) = 345 ∧
    decodeDvsPol (dvs_addr 260 ⟨0, 345, 100, true⟩) = 1 ∧
    260 - 1 - decodeDvsYFlip (dvs_addr 260 ⟨0, 345, 100, true⟩) = 100 :=
  c8_dvs_roundtrip 260 ⟨0, 345, 100, true⟩ (by decide) (by decide) (by decide)

/-- Claim C10 (status: confirmed).  For sorted input streams (and in fact for
any input streams) the merge loop terminates: `runMerge` returns `some`,
which by construction of `mergeGo` means the loop guard became false — all
three cursors reached the ends of their streams — and the inner `none` state
in which no branch fires was never hit. -/
theorem c10_merge_terminates (dvs : List DvsEvent) (imu : List ImuSample)
    (frames : List FrameRecord) (sensorH : ℕ)
    (hd : (dvs.map (fun e => e.timeStamp)).Pairwise (fun a b => a ≤ b))
    (hi : (imu.map (fun s => s.timeStamp)).Pairwise (fun a b => a ≤ b))
    (hf : (frames.map (fun fr => fr.timeStamp)).Pairwise (fun a b => a ≤ b)) :
    ∃ l, runMerge dvs imu frames sensorH = some l :=
  runMerge_total dvs imu frames sensorH

/-- Witness for C10: one event per stream, sorted. -/
theorem c10_merge_terminates_witness :
    ∃ l, runMerge [tieDvs] [sampleB] [tieFrameB] 260 = some l :=
  c10_merge_terminates [tieDvs] [sampleB] [tieFrameB] 260
    (by decide) (by decide) (by decide)

/-- Claim C1 (status: confirmed).  For input streams whose timestamps are
individually non-decreasing, the merge loop terminates with an output whose
timestamp sequence is non-decreasing, and the normalized timestamps (after
subtracting the first timestamp) are likewise non-decreasing.  Degenerate
cases (empty IMU stream, empty frame stream, or both) are instances of the
statement. -/
theorem c1_merged_monotone (dvs : List DvsEvent) (imu : List ImuSample)
    (frames : List FrameRecord) (sensorH : ℕ)
    (hd : (dvs.map (fun e => e.timeStamp)).Pairwise (fun a b => a ≤ b))
    (hi : (imu.map (fun s => s.timeStamp)).Pairwise (fun a b => a ≤ b))
    (hf : (frames.map (fun fr => fr.timeStamp)).Pairwise (fun a b => a ≤ b)) :
    ∃ l, runMerge dvs imu frames sensorH = some l ∧
      (l.map (fun p => p.2)).Pairwise (fun a b => a ≤ b) ∧
      ∀ nl, normalizeTs l = some nl →
        (nl.map (fun p => p.2)).Pairwise (fun a b => a ≤ b) := by
  obtain ⟨l, hl⟩ := runMerge_total dvs imu frames sensorH
  have hpair := runMerge_pairwise dvs imu frames sensorH hd hi hf l hl
  refine ⟨l, hl, ?_, ?_⟩
  · rw [List.pairwise_map]
    exact hpair
  · intro nl hnl
    cases l with
    | nil => simp [normalizeTs] at hnl
    | cons p tl =>
      simp only [normalizeTs, Option.some.injEq] at hnl
      subst hnl
      rw [List.map_map, List.pairwise_map]
      exact hpair.imp (fun h => by simp only [Function.comp]; omega)

/-- Witness for C1: one event in each stream, sorted timestamps 50, 100, 200. -/
theorem c1_merged_monotone_witness :
    ∃ l, runMerge [⟨50, 1, 2, false⟩] [tieImu] [tieFrameB] 260 = some l ∧
      (l.map (fun p => p.2)).Pairwise (fun a b => a ≤ b) ∧
      ∀ nl, normalizeTs l = some nl →
        (nl.map (fun p => p.2)).Pairwise (fun a b => a ≤ b) :=
  c1_merged_monotone [⟨50, 1, 2, false⟩] [tieImu] [tieFrameB] 260
    (by decide) (by decide) (by decide)

/-- The wrapped 16-bit field is below `2^16`. -/
theorem land16_lt (t : ℤ) : land16 t < 2 ^ 16 := by
  unfold land16
  have h1 : 0 ≤ t % 2 ^ 16 := Int.emod_nonneg t (by norm_num)
  have h2 : t % 2 ^ 16 < 2 ^ 16 := Int.emod_lt_of_pos t (by norm_num)
  omega

/-- The packed IMU word as plain arithmetic: the or-ed fields are disjoint. -/
theorem imu_word_arith (q : ℤ) (c : ℕ) (hc : c ≤ 6) :
    ((land16 q) <<< imuSampleShift) ||| (c <<< imuTypeShift) |||
        (imuSampleSubtype <<< apsSubTypeShift) ||| (apsImuType <<< apsDvsImuTypeShift) =
      (land16 q) * 2 ^ 12 + c * 2 ^ 28 + 3 * 2 ^ 10 + 2 ^ 31 := by
  have hq : land16 q < 2 ^ 16 := land16_lt q
  unfold imuSampleShift imuTypeShift imuSampleSubtype apsSubTypeShift apsImuType
    apsDvsImuTypeShift
  rw [Nat.shiftLeft_eq, Nat.shiftLeft_eq, Nat.shiftLeft_eq, Nat.shiftLeft_eq]
  have s1 : (land16 q) * 2 ^ 12 ||| c * 2 ^ 28 = c * 2 ^ 28 + (land16 q) * 2 ^ 12 := by
    rw [Nat.or_comm]
    have h := Nat.mul_add_lt_is_or (show (land16 q) * 2 ^ 12 < 2 ^ 28 by omega) c
    rw [Nat.mul_comm (2 ^ 28) c] at h
    exact h.symm
  have s2 : c * 2 ^ 28 + (land16 q) * 2 ^ 12 ||| 3 * 2 ^ 10 =
      c * 2 ^ 28 + (land16 q) * 2 ^ 12 + 3 * 2 ^ 10 := by
    have hrepr : c * 2 ^ 28 + (land16 q) * 2 ^ 12 = 2 ^ 12 * (c * 2 ^ 16 + land16 q) := by
      ring
    have h := Nat.mul_add_lt_is_or (show 3 * 2 ^ 10 < 2 ^ 12 by omega) (c * 2 ^ 16 + land16 q)
    rw [← hrepr] at h
    exact h.symm
  have s3 : c * 2 ^ 28 + (land16 q) * 2 ^ 12 + 3 * 2 ^ 10 ||| 1 * 2 ^ 31 =
      2 ^ 31 + (c * 2 ^ 28 + (land16 q) * 2 ^ 12 + 3 * 2 ^ 10) := by
    rw [Nat.or_comm, Nat.one_mul]
    have h := Nat.mul_add_lt_is_or
      (show c * 2 ^ 28 + (land16 q) * 2 ^ 12 + 3 * 2 ^ 10 < 2 ^ 31 by omega) 1
    rw [Nat.mul_one] at h
    exact h.symm
  rw [s1, s2, s3]
  omega

/-- Every in-range IMU channel word decomposes as
`q16 * 2^12 + code * 2^28 + 3 * 2^10 + 2^31` with `q16 < 2^16`. -/
theorem encode_imu_arith (v : ℚ) (c : ℕ) (hc : c ≤ 6) :
    ∃ w : ℕ, w < 2 ^ 16 ∧
      (encode_imu v c).getD 0 = w * 2 ^ 12 + c * 2 ^ 28 + 3 * 2 ^ 10 + 2 ^ 31 := by
  interval_cases c <;> exact ⟨_, land16_lt _, imu_word_arith _ _ (by omega)⟩

/-- Every in-range IMU channel word has bit 31 set and subtype 3 in bits
[11:10]. -/
theorem encode_word_facts (v : ℚ) (c : ℕ) (hc : c ≤ 6) :
    2 ^ 31 ≤ (encode_imu v c).getD 0 ∧ ((encode_imu v c).getD 0 >>> 10) % 4 = 3 := by
  obtain ⟨w, hw, heq⟩ := encode_imu_arith v c hc
  rw [heq, Nat.shiftRight_eq_div_pow]
  constructor <;> omega

/-- Every pair of an IMU septet has bit 31 set, subtype 3, and the timestamp of the sample. -/
theorem septetPairs_facts (s : ImuSample) (p : ℕ × ℤ) (hp : p ∈ septetPairs s) :
    2 ^ 31 ≤ p.1 ∧ (p.1 >>> 10) % 4 = 3 ∧ p.2 = s.timeStamp := by
  simp only [septetPairs, List.mem_map] at hp
  obtain ⟨a, ha, rfl⟩ := hp
  simp only [septetWords, List.mem_cons, List.not_mem_nil, or_false] at ha
  rcases ha with rfl | rfl | rfl | rfl | rfl | rfl | rfl
  · exact ⟨(encode_word_facts s.accelX 0 (by omega)).1,
      (encode_word_facts s.accelX 0 (by omega)).2, rfl⟩
  · exact ⟨(encode_word_facts s.accelY 1 (by omega)).1,
      (encode_word_facts s.accelY 1 (by omega)).2, rfl⟩
  · exact ⟨(encode_word_facts s.accelZ 2 (by omega)).1,
      (encode_word_facts s.accelZ 2 (by omega)).2, rfl⟩
  · exact ⟨(encode_word_facts s.temperature 3 (by omega)).1,
      (encode_word_facts s.temperature 3 (by omega)).2, rfl⟩
  · exact ⟨(encode_word_facts s.gyroX 4 (by omega)).1,
      (encode_word_facts s.gyroX 4 (by omega)).2, rfl⟩
  · exact ⟨(encode_word_facts s.gyroY 5 (by omega)).1,
      (encode_word_facts s.gyroY 5 (by omega)).2, rfl⟩
  · exact ⟨(encode_word_facts s.gyroZ 6 (by omega)).1,
      (encode_word_facts s.gyroZ 6 (by omega)).2, rfl⟩

/-- Claim C2 counterexample (status: corrected).  Input: one DVS event and
one IMU sample, both at timestamp 100, no frames.  The merged output is the
full 7-word septet of the IMU sample followed by the DVS word: every one of the
first 7 words has bit 31 set (an IMU word) and timestamp 100, while the DVS
word — the only word with bit 31 clear — sits at index 7.  The DVS word is
NOT emitted before the IMU group, refuting the claimed tie-break. -/
theorem c2_counterexample :
    runMerge [tieDvs] [tieImu] [] 260 =
      some (septetPairs tieImu ++ [(dvs_addr 260 tieDvs, 100)]) ∧
    (septetPairs tieImu).length = 7 ∧
    (∀ p ∈ septetPairs tieImu, 2 ^ 31 ≤ p.1 ∧ p.2 = 100) ∧
    dvs_addr 260 tieDvs < 2 ^ 31 := by
  refine ⟨rfl, rfl, ?_, by decide⟩
  intro p hp
  exact ⟨(septetPairs_facts tieImu p hp).1, (septetPairs_facts tieImu p hp).2.2⟩

/-- Claim C2 as amended: on a DVS-IMU timestamp tie the DVS comparison
(strict `<` at lines 427-428) fails, so the merge emits the 7 IMU-group
words first and the tied DVS word only afterwards.  Stated as a one-step
unfolding of the loop: in any state whose pending DVS event and pending IMU
group share a timestamp, with no pending frame group due at or before that
timestamp, the next emission is the full IMU septet. -/
theorem c2_imu_wins_tie (M : MergeInput) (fuel di mi fi : ℕ)
    (hdi : di < M.dvsT.length) (hmi : mi < M.imuT.length)
    (htie : M.dvsT.getD di 0 = M.imuT.getD mi 0)
    (hfr : fi = M.frT.length ∨ M.imuT.getD mi 0 < M.frT.getD fi 0) :
    mergeGo M (fuel + 1) di mi fi =
      (mergeGo M fuel di (mi + 7) fi).map (fun r => imuBlock M mi ++ r) := by
  have hg : di < M.dvsT.length ∨ mi < M.imuT.length ∨ fi < M.frT.length := Or.inl hdi
  have hdvs : ¬ dvsCond M di mi fi := by unfold dvsCond; omega
  have himu : imuCond M mi fi := by unfold imuCond; omega
  simp only [mergeGo]
  rw [if_pos hg, if_neg hdvs, if_pos himu]

/-- Witness for the amended C2 at the counterexample input and the initial
loop state. -/
theorem c2_imu_wins_tie_witness :
    mergeGo (buildMergeInput [tieDvs] [tieImu] [] 260) 8 0 0 0 =
      (mergeGo (buildMergeInput [tieDvs] [tieImu] [] 260) 7 0 7 0).map
        (fun r => imuBlock (buildMergeInput [tieDvs] [tieImu] [] 260) 0 ++ r) :=
  c2_imu_wins_tie (buildMergeInput [tieDvs] [tieImu] [] 260) 7 0 0 0
    (by decide) (by decide) (by decide) (by decide)

/-- Claim C3 counterexample (status: corrected).  Input: one IMU sample at
timestamp 100 and frames at timestamps 100 and 200, no DVS.  IMU words have
subtype 3 in bits [11:10]; frame words have subtype 0 or 1 there.  In the
merged output the first frame word is at index 0 and the first IMU word at
index 8 (after the full 8-word block of the 2×2 frame): the IMU group is NOT
emitted before the tied frame group, refuting the claimed tie-break. -/
theorem c3_counterexample :
    runMerge [] [tieImu] [tieFrameA, tieFrameB] 260 =
      some (((resetFrameWords 2 2 ++ signalFrameWords 2 2 tieFrameA.samples).map
            (fun a => (a, (100 : ℤ)))) ++
          (septetPairs tieImu ++
            ((resetFrameWords 2 2 ++ signalFrameWords 2 2 tieFrameB.samples).map
              (fun a => (a, (200 : ℤ)))))) ∧
    (resetFrameWords 2 2 ++ signalFrameWords 2 2 tieFrameA.samples).length = 8 ∧
    (∀ a ∈ resetFrameWords 2 2 ++ signalFrameWords 2 2 tieFrameA.samples,
      (a >>> 10) % 4 ≠ 3) ∧
    (∀ p ∈ septetPairs tieImu, (p.1 >>> 10) % 4 = 3 ∧ p.2 = 100) := by
  refine ⟨rfl, rfl, by decide, ?_⟩
  intro p hp
  exact ⟨(septetPairs_facts tieImu p hp).2.1, (septetPairs_facts tieImu p hp).2.2⟩

/-- Claim C3 as amended: on an IMU-frame timestamp tie the IMU comparison
(strict `<` at line 436) fails, so the merge emits the `2*width*height` frame-group words first and the tied IMU septet only afterwards.
Stated as a one-step unfolding of the loop: in any state whose pending IMU
group and pending frame group share a timestamp, with no pending DVS event
strictly earlier, the next emission is the full frame block. -/
theorem c3_frame_wins_tie (M : MergeInput) (fuel di mi fi : ℕ)
    (hmi : mi < M.imuT.length) (hfi : fi < M.frT.length)
    (htie : M.imuT.getD mi 0 = M.frT.getD fi 0)
    (hd : di = M.dvsT.length ∨ M.frT.getD fi 0 ≤ M.dvsT.getD di 0) :
    mergeGo M (fuel + 1) di mi fi =
      (mergeGo M fuel di mi (fi + 1)).map (fun r => frBlock M fi ++ r) := by
  have hg : di < M.dvsT.length ∨ mi < M.imuT.length ∨ fi < M.frT.length :=
    Or.inr (Or.inl hmi)
  have hdvs : ¬ dvsCond M di mi fi := by unfold dvsCond; omega
  have himu : ¬ imuCond M mi fi := by unfold imuCond; omega
  have hfr : frCond M fi := by unfold frCond; omega
  simp only [mergeGo]
  rw [if_pos hg, if_neg hdvs, if_neg himu, if_pos hfr]

/-- Witness for the amended C3 at the counterexample input and the initial
loop state. -/
theorem c3_frame_wins_tie_witness :
    mergeGo (buildMergeInput [] [tieImu] [tieFrameA, tieFrameB] 260) 9 0 0 0 =
      (mergeGo (buildMergeInput [] [tieImu] [tieFrameA, tieFrameB] 260) 8 0 0 1).map
        (fun r => frBlock (buildMergeInput [] [tieImu] [tieFrameA, tieFrameB] 260) 0 ++ r) :=
  c3_frame_wins_tie (buildMergeInput [] [tieImu] [tieFrameA, tieFrameB] 260) 8 0 0 0
    (by decide) (by decide) (by decide) (by decide)

/-- Claim C4 (status: confirmed).  Every IMU sample of the input contributes
a contiguous segment of 7 words to the merged output — its septet in the
fixed channel order accelX, accelY, accelZ, temperature, gyroX, gyroY, gyroZ
(channel codes 0..6, see `septetWords`), every word carrying the timestamp
of the sample (see `septetPairs`).  No sortedness hypothesis is needed. -/
theorem c4_imu_septet_atomic (dvs : List DvsEvent) (imu : List ImuSample)
    (frames : List FrameRecord) (sensorH : ℕ) (j : ℕ) (hj : j < imu.length)
    (l : List (ℕ × ℤ)) (hl : runMerge dvs imu frames sensorH = some l) :
    SegmentOf (septetPairs (imu.getD j dfltImu)) l := by
  have hseg := mergeGo_imu_segment (buildMergeInput dvs imu frames sensorH)
    ((buildMergeInput dvs imu frames sensorH).dvsT.length +
      (buildMergeInput dvs imu frames sensorH).imuT.length +
      (buildMergeInput dvs imu frames sensorH).frT.length)
    0 0 0 l ⟨0, rfl⟩ hl j (Nat.zero_le _)
    (by rw [imuT_length]; omega)
  rw [imuBlock_eq dvs imu frames sensorH j hj] at hseg
  exact hseg

/-- Witness for C4: a single IMU sample with distinct channel values; its
septet is a segment of the merged output. -/
theorem c4_imu_septet_atomic_witness :
    SegmentOf (septetPairs ([sampleB].getD 0 dfltImu))
      ((runMerge [] [sampleB] [] 260).getD []) :=
  c4_imu_septet_atomic [] [sampleB] [] 260 0 (by decide)
    ((runMerge [] [sampleB] [] 260).getD []) rfl

/-- Claim C6 (status: confirmed).  For every non-empty merged sequence (of
sorted streams), normalization subtracts `all_timestamps[0]`, which equals
the minimum timestamp, from the timestamp of every word, and the minimum
timestamp of the normalized output is exactly 0. -/
theorem c6_normalize_min_zero (dvs : List DvsEvent) (imu : List ImuSample)
    (frames : List FrameRecord) (sensorH : ℕ)
    (hd : (dvs.map (fun e => e.timeStamp)).Pairwise (fun a b => a ≤ b))
    (hi : (imu.map (fun s => s.timeStamp)).Pairwise (fun a b => a ≤ b))
    (hf : (frames.map (fun fr => fr.timeStamp)).Pairwise (fun a b => a ≤ b))
    (l : List (ℕ × ℤ)) (hl : runMerge dvs imu frames sensorH = some l)
    (hne : l ≠ []) :
    ∃ nl, normalizeTs l = some nl ∧
      nl = l.map (fun p => (p.1, p.2 - listMin (l.map (fun q => q.2)))) ∧
      listMin (nl.map (fun q => q.2)) = 0 := by
  have hpair := runMerge_pairwise dvs imu frames sensorH hd hi hf l hl
  cases l with
  | nil => exact absurd rfl hne
  | cons p tl =>
    have hmin : listMin ((p :: tl).map (fun q => q.2)) = p.2 :=
      listMin_of_sorted p tl hpair
    have hhead : ∀ q ∈ tl, p.2 ≤ q.2 := (List.pairwise_cons.mp hpair).1
    refine ⟨_, rfl, ?_, ?_⟩
    · rw [hmin]
    · rw [List.map_map]
      simp only [Function.comp_def, List.map_cons, listMin, sub_self]
      apply foldl_min_const
      intro x hx
      simp only [List.mem_map] at hx
      obtain ⟨q, hq, rfl⟩ := hx
      have h := hhead q hq
      omega

/-- Witness for C6: three DVS events with timestamps 50, 60, 70, no IMU, no
frames. -/
theorem c6_normalize_min_zero_witness :
    ∃ nl, normalizeTs ((runMerge [⟨50, 1, 2, false⟩, ⟨60, 3, 4, true⟩, ⟨70, 5, 6, false⟩]
        [] [] 260).getD []) = some nl ∧
      nl = ((runMerge [⟨50, 1, 2, false⟩, ⟨60, 3, 4, true⟩, ⟨70, 5, 6, false⟩]
          [] [] 260).getD []).map
        (fun p => (p.1, p.2 - listMin (((runMerge [⟨50, 1, 2, false⟩, ⟨60, 3, 4, true⟩,
          ⟨70, 5, 6, false⟩] [] [] 260).getD []).map (fun q => q.2)))) ∧
      listMin ((nl.map (fun q => q.2))) = 0 :=
  c6_normalize_min_zero [⟨50, 1, 2, false⟩, ⟨60, 3, 4, true⟩, ⟨70, 5, 6, false⟩] [] [] 260
    (by decide) (by decide) (by decide)
    ((runMerge [⟨50, 1, 2, false⟩, ⟨60, 3, 4, true⟩, ⟨70, 5, 6, false⟩] [] [] 260).getD [])
    rfl (by decide)

end Aedat
